import Mathlib

/-!
Verification development for the documentation mirroring tool
(scripts/fetch_claude_docs.py).  The Python source is shallowly embedded:
pure string manipulation is translated to functions on `String` / `List Char`,
the retrying fetch loop becomes a fuel-indexed recursion over an environment
of per-attempt transport responses, and the orchestrating `main` becomes a
fold over per-page fetch results that threads manifest, disk and counter
state explicitly.  SHA-256 is kept abstract as a digest-function parameter
`H : String → String`; the code only ever compares digests for equality.
-/

set_option maxRecDepth 4096

/-- Retry configuration constant `MAX_RETRIES = 3` (fetch_claude_docs.py line 66). -/
def MAX_RETRIES : Nat := 3

/-- Constant `MANIFEST_FILE = "docs_manifest.json"` (line 52). -/
def MANIFEST_FILE : String := "docs_manifest.json"

/-- Characters stripped by Python `str.strip()` with no argument
(ASCII whitespace: space, tab, linefeed, return, vertical tab, formfeed). -/
def isPySpace (c : Char) : Bool :=
  c == ' ' || c == '\t' || c == '\n' || c == '\r' || c == '\x0b' || c == '\x0c'

/-- Python `s.strip()` on the character list of a string. -/
def pyStripList (l : List Char) : List Char :=
  ((l.dropWhile isPySpace).reverse.dropWhile isPySpace).reverse

/-- Python `url_path[:-3] if url_path.endswith('.md') else url_path` (line 129). -/
def stripMd (p : List Char) : List Char :=
  if ".md".data.isSuffixOf p then p.take (p.length - 3) else p

/-- Python `path.strip('/')` (line 132): drop leading and trailing slashes. -/
def stripSlashes (p : List Char) : List Char :=
  ((p.dropWhile (· == '/')).reverse.dropWhile (· == '/')).reverse

/-- Python `path.replace('/', '__')` (line 135): every slash becomes two underscores. -/
def replaceSlashes : List Char → List Char
  | [] => []
  | c :: rest => (if c == '/' then ['_', '_'] else [c]) ++ replaceSlashes rest

/-- Python truthiness of the optional `category` argument: not `None` and not empty. -/
def categoryTruthy : Option String → Bool
  | some c => c != ""
  | none => false

/-- Embedding of `url_to_safe_filename` (lines 113-143): strip a trailing `.md`,
strip leading/trailing slashes, replace `/` by `__`, and prepend
`code__{category}` when source is `code` with a truthy category, else the
source name, joined by `__`, with `.md` appended. -/
def url_to_safe_filename (url_path source : String) (category : Option String) : String :=
  let path := stripSlashes (stripMd url_path.data)
  let safe_name := replaceSlashes path
  let prefixChars :=
    if source == "code" && categoryTruthy category then
      "code__".data ++ (category.getD "").data
    else
      source.data
  String.mk (prefixChars ++ "__".data ++ safe_name ++ ".md".data)

/-- Python substring test `needle in hay` on character lists. -/
def containsSub (needle : List Char) : List Char → Bool
  | [] => needle.isPrefixOf []
  | c :: rest => needle.isPrefixOf (c :: rest) || containsSub needle rest

/-- Rejection reasons of `validate_markdown_content` (lines 210-257), mirroring its
three `ValueError` messages. -/
inductive RejectReason where
  | htmlDetected
  | tooShort
  | notMarkdown
deriving DecidableEq

/-- The `markdown_indicators` list (lines 225-237). -/
def markdownIndicators : List (List Char) :=
  ["# ".data, "## ".data, "### ".data, "```".data, "- ".data, "* ".data,
   "1. ".data, "[".data, "**".data, "_".data, "> ".data]

/-- Per-line test of the indicator loop body (line 243):
`line.strip().startswith(indicator) or indicator in line`, with the `break`
meaning each line contributes at most once. -/
def lineHasIndicator (line : List Char) : Bool :=
  markdownIndicators.any fun ind =>
    ind.isPrefixOf (pyStripList line) || containsSub ind line

/-- The indicator count of lines 239-244: number of the first 50 lines that
contain (or whose stripped form starts with) some markdown indicator. -/
def indicatorCount (content : List Char) : Nat :=
  ((content.splitOn '\n').take 50).countP lineHasIndicator

/-- The `doc_patterns` keyword list (line 252); only ever logged, never rejected on. -/
def doc_patterns : List String :=
  ["installation", "usage", "example", "api", "configuration", "claude", "code"]

/-- Python `content.lower()` (line 253) on the character list of a string. -/
def pyLowerList (l : List Char) : List Char :=
  l.map Char.toLower

/-- Embedding of `validate_markdown_content` (lines 210-257).  `some r` means the
function raises `ValueError` with reason `r`; `none` means it returns normally.
The `doc_patterns` keyword scan of lines 251-257 only emits a log warning and
therefore does not appear in the result. -/
def validate_markdown_content (content : String) : Option RejectReason :=
  if content.data = [] || "<!DOCTYPE".data.isPrefixOf content.data
      || containsSub "<html".data (content.data.take 100) then
    some .htmlDetected
  else if (pyStripList content.data).length < 50 then
    some .tooShort
  else if indicatorCount content.data < 3 then
    some .notMarkdown
  else
    none

/-- Outcome of one `session.get` call inside the retry loops: a 429 response
carrying a `Retry-After` value, any `requests.exceptions.RequestException`
(connection error or `raise_for_status`), or a body delivered successfully. -/
inductive FetchResponse where
  | rateLimited (retryAfter : Nat)
  | requestException
  | ok (content : String)

/-- How a call of `fetch_markdown_content` / `fetch_changelog` ends: a returned
`(filename, content)` pair, the `Exception` raised after exhausting the retry
budget, a propagated `ValueError` from validation, or falling off the end of
the `for` loop, which in Python returns `None` implicitly. -/
inductive FetchResult where
  | returned (filename content : String)
  | raisedTransport
  | raisedValidation
  | fellThrough
deriving DecidableEq

/-- The body of the `for attempt in range(MAX_RETRIES)` loop of
`fetch_markdown_content` (lines 281-315), fuel-indexed: `fuel` is the number of
iterations still available (initially `MAX_RETRIES`), `attempt` indexes the
response returned by the environment for each successive `session.get`.
A 429 sleeps and `continue`s, a `RequestException` backs off and retries unless
this is the last iteration (in which case it raises), and a delivered body is
validated and returned. -/
def fetchAttempts (responses : Nat → FetchResponse) (filename : String) :
    Nat → Nat → FetchResult
  | 0, _ => .fellThrough
  | fuel + 1, attempt =>
    match responses attempt with
    | .rateLimited _ => fetchAttempts responses filename fuel (attempt + 1)
    | .requestException =>
      if 0 < fuel then fetchAttempts responses filename fuel (attempt + 1)
      else .raisedTransport
    | .ok content =>
      match validate_markdown_content content with
      | some _ => .raisedValidation
      | none => .returned filename content

/-- Embedding of `fetch_markdown_content` (lines 260-315): compute the target
filename via `url_to_safe_filename`, then run the bounded retry loop. -/
def fetch_markdown_content (responses : Nat → FetchResponse)
    (page_path source : String) (category : Option String) : FetchResult :=
  fetchAttempts responses (url_to_safe_filename page_path source category) MAX_RETRIES 0

/-- The fixed header prepended to the fetched changelog (lines 349-357). -/
def CHANGELOG_HEADER : String :=
  "# Claude Code Changelog\n\n> **Source**: https://github.com/anthropics/claude-code/blob/main/CHANGELOG.md\n> \n> This is the official Claude Code release changelog, automatically fetched from the Claude Code repository. For documentation, see other topics via `/docs`.\n\n---\n\n"

/-- The retry loop of `fetch_changelog` (lines 334-379): same loop shape as
`fetchAttempts`, but the filename is the constant `"changelog.md"`, the header
is prepended to the body, and the only validation is
`len(content.strip()) < 100`. -/
def changelogAttempts (responses : Nat → FetchResponse) : Nat → Nat → FetchResult
  | 0, _ => .fellThrough
  | fuel + 1, attempt =>
    match responses attempt with
    | .rateLimited _ => changelogAttempts responses fuel (attempt + 1)
    | .requestException =>
      if 0 < fuel then changelogAttempts responses fuel (attempt + 1)
      else .raisedTransport
    | .ok c =>
      let content := CHANGELOG_HEADER ++ c
      if (pyStripList content.data).length < 100 then .raisedValidation
      else .returned "changelog.md" content

/-- Embedding of `fetch_changelog` (lines 324-379). -/
def fetch_changelog (responses : Nat → FetchResponse) : FetchResult :=
  changelogAttempts responses MAX_RETRIES 0

/-- Errors observable at the per-page `except` boundary in `main`:
the transport exception re-raised after `MAX_RETRIES` attempts, the
validation `ValueError`, or the `TypeError` produced when the caller's
`filename, content = fetch_…(…)` unpacks an implicitly returned `None`. -/
inductive PageFailure where
  | transportExhausted
  | validationRejected
  | unpackTypeError
deriving DecidableEq

/-- The caller-side view of a fetch call in `main` (lines 454-460, 511-517, 559):
a returned pair unpacks into `(filename, content)`; a raised exception
propagates; a `None` return makes the tuple unpacking itself raise `TypeError`. -/
def unpackResult : FetchResult → Except PageFailure (String × String)
  | .returned f c => .ok (f, c)
  | .raisedTransport => .error .transportExhausted
  | .raisedValidation => .error .validationRejected
  | .fellThrough => .error .unpackTypeError

/-- One manifest `files` entry.  The display-only provenance fields
(`original_url`, `original_md_url`, `source`, `category`) are recomputed from
the identity every run and are not inspected by any logic here, so only the
two fields the sync algorithm reads back are carried. -/
structure ManifestEntry where
  hash : String
  last_updated : String
deriving DecidableEq

/-- Python `manifest.get("files", {}).get(filename, {}).get("hash", "")`
(lines 463, 520, 562). -/
def getOldHash (prev : List (String × ManifestEntry)) (filename : String) : String :=
  match prev.lookup filename with
  | some e => e.hash
  | none => ""

/-- Python `old_entry.get("last_updated", datetime.now().isoformat())`
(lines 473, 530, 572), with `now` the current timestamp. -/
def getOldLastUpdated (prev : List (String × ManifestEntry)) (filename now : String) : String :=
  match prev.lookup filename with
  | some e => e.last_updated
  | none => now

/-- Embedding of `content_has_changed` (lines 318-321), with the SHA-256
hex digest abstracted as `H`. -/
def content_has_changed (H : String → String) (content old_hash : String) : Bool :=
  H content != old_hash

/-- The mutable state of one `main` run: the in-progress `new_manifest["files"]`
association list, the docs directory contents (filename to file text), the
`fetched_files` set (kept as a list in processing order), the `successful` and
`failed` counters, `failed_pages`, and the list of filenames actually written
this run (each `save_markdown_file` call). -/
structure RunState where
  entries : List (String × ManifestEntry)
  disk : String → Option String
  fetched : List String
  successful : Nat
  failed : Nat
  failedPages : List String
  written : List String

/-- Initial run state (lines 432-436): empty counters and manifest, the docs
directory as found on disk. -/
def initState (disk0 : String → Option String) : RunState :=
  { entries := [], disk := disk0, fetched := [], successful := 0, failed := 0,
    failedPages := [], written := [] }

/-- The shared per-page body of `main`'s three fetch sections (lines 453-493,
510-549, 558-588).  A returned pair is diffed by hash against the *previous*
manifest: on change the file is written and `last_updated` is set to now, else
nothing is written and the previous `last_updated` is carried forward; either
way a fresh entry is recorded and the filename marked fetched.  Any raised
exception (transport exhaustion, validation, or unpacking `None`) is caught,
counted, and appends `pageName` to `failed_pages`. -/
def processResult (H : String → String) (now : String)
    (prev : List (String × ManifestEntry)) (st : RunState)
    (pageName : String) (result : FetchResult) : RunState :=
  match result with
  | .returned filename content =>
    let old_hash := getOldHash prev filename
    if content_has_changed H content old_hash then
      { st with
        disk := fun g => if g = filename then some content else st.disk g
        written := st.written ++ [filename]
        entries := st.entries ++ [(filename, ⟨H content, now⟩)]
        fetched := st.fetched ++ [filename]
        successful := st.successful + 1 }
    else
      { st with
        entries := st.entries ++ [(filename, ⟨old_hash, getOldLastUpdated prev filename now⟩)]
        fetched := st.fetched ++ [filename]
        successful := st.successful + 1 }
  | _ =>
    { st with
      failed := st.failed + 1
      failedPages := st.failedPages ++ [pageName] }

/-- Sequential processing of a list of `(failed-page label, fetch result)` pairs. -/
def runPages (H : String → String) (now : String)
    (prev : List (String × ManifestEntry)) (st : RunState)
    (pages : List (String × FetchResult)) : RunState :=
  pages.foldl (fun s p => processResult H now prev s p.1 p.2) st

/-- Deletion of a single file (`file_path.unlink()`, line 411). -/
def removeFile (disk : String → Option String) (f : String) : String → Option String :=
  fun g => if g = f then none else disk g

/-- The deletion loop of `cleanup_old_files` (lines 404-411): skip the
manifest file, delete everything else in the list. -/
def removeFiles : List String → (String → Option String) → String → Option String
  | [], disk => disk
  | f :: t, disk => removeFiles t (if f = MANIFEST_FILE then disk else removeFile disk f)

/-- Embedding of `cleanup_old_files` (lines 396-411): delete every filename in
`previous_files - current_files` except the manifest file itself. -/
def cleanup_old_files (previousFiles currentFiles : List String)
    (disk : String → Option String) : String → Option String :=
  removeFiles (previousFiles.filter fun f => !(currentFiles.contains f)) disk

/-- The filenames successfully returned by the fetches of a page list — the
`fetched_files` set a run ends with. -/
def returnedFiles (pages : List (String × FetchResult)) : List String :=
  pages.filterMap fun p =>
    match p.2 with
    | .returned f _ => some f
    | _ => none

/-- The per-identity work of one run of `main` (lines 440-588): the pages of
the two discovery sources (`none` models a discovery failure that skips the
whole source, lines 495-496 and 551-552), always followed by the single fixed
changelog identity. -/
def mainPages (codeDocs platformDocs : Option (List (String × FetchResult)))
    (changelogResult : FetchResult) : List (String × FetchResult) :=
  codeDocs.getD [] ++ platformDocs.getD [] ++ [("changelog", changelogResult)]

/-- Result of a whole run: final state, the docs directory after
`cleanup_old_files`, and the process exit code. -/
structure RunResult where
  state : RunState
  finalDisk : String → Option String
  exitCode : Nat

/-- Embedding of `main` (lines 414-630): process every page of all three
sources against the previous manifest, reconcile the docs directory, and exit
1 exactly when `failed_pages` is non-empty and `successful == 0`
(lines 621-630), else 0. -/
def mainRun (H : String → String) (now : String)
    (prev : List (String × ManifestEntry)) (disk0 : String → Option String)
    (codeDocs platformDocs : Option (List (String × FetchResult)))
    (changelogResult : FetchResult) : RunResult :=
  let st := runPages H now prev (initState disk0)
    (mainPages codeDocs platformDocs changelogResult)
  { state := st
    finalDisk := cleanup_old_files (prev.map Prod.fst) st.fetched st.disk
    exitCode := if st.failedPages ≠ [] ∧ st.successful = 0 then 1 else 0 }

/-- Canonical-input predicate for the amended injectivity claim: the source and
category are the combinations the program actually passes (lines 454-459 use
`"code"` with category `"bwc"` or `"ref"`, lines 511-516 use `"platform"` with
`None`), and the path is already in normal form — no trailing markdown suffix,
no leading or trailing slash, and no underscore character. -/
def validTriple (p source : String) (category : Option String) : Prop :=
  ((source = "code" ∧ (category = some "bwc" ∨ category = some "ref"))
      ∨ (source = "platform" ∧ category = none))
    ∧ ".md".data.isSuffixOf p.data = false
    ∧ stripSlashes p.data = p.data
    ∧ '_' ∉ p.data

/-- Markdown sample used for the validator acceptance conjunct. -/
def goodMarkdownSample : String :=
  "# Title\n\n- item one\n- item two\n\nThis is a sample document with enough length to pass the minimum threshold."

/-- Markdown sample containing none of the `doc_patterns` keywords. -/
def noKeywordSample : String :=
  "# Title\n\n- first\n- second\n\nPlenty of filler text here so that the length check passes without trouble."

/-- Concrete digest function used by witnesses: prefixing keeps it injective
and never empty, like a hex digest. -/
def sampleH : String → String := fun s => "sha-" ++ s

/-- Concrete discovered code page used by witnesses. -/
def sampleCodeDocs : Option (List (String × FetchResult)) :=
  some [("code:hooks", .returned "code__bwc__hooks.md" "hello")]

/-- Concrete changelog fetch outcome used by witnesses. -/
def sampleChangelog : FetchResult := .returned "changelog.md" "log"

/-! ### String and list helper lemmas -/

theorem dropWhile_slash_eq_self {p : List Char} (h : '/' ∉ p) :
    p.dropWhile (· == '/') = p := by
  cases p with
  | nil => rfl
  | cons c t =>
    have hc : (c == '/') = false := by
      rw [beq_eq_false_iff_ne]
      intro hcc
      exact h (by simp [hcc])
    simp [List.dropWhile, hc]

theorem stripSlashes_of_no_slash {p : List Char} (h : '/' ∉ p) : stripSlashes p = p := by
  unfold stripSlashes
  rw [dropWhile_slash_eq_self h, dropWhile_slash_eq_self (by simpa using h),
    List.reverse_reverse]

theorem stripMd_of_not_suffix {p : List Char} (h : ".md".data.isSuffixOf p = false) :
    stripMd p = p := by
  simp [stripMd, h]

theorem stripMd_append_md (p : List Char) : stripMd (p ++ ".md".data) = p := by
  have hsuf : ".md".data.isSuffixOf (p ++ ".md".data) = true := by
    simp [List.isSuffixOf, List.reverse_append, List.isPrefixOf]
  have hlen : (p ++ ".md".data).length - 3 = p.length := by
    simp [List.length_append]
  rw [stripMd, if_pos hsuf, hlen]
  exact List.take_left p ".md".data

theorem replaceSlashes_of_no_slash {p : List Char} (h : '/' ∉ p) :
    replaceSlashes p = p := by
  induction p with
  | nil => rfl
  | cons c t ih =>
    have hc : (c == '/') = false := by
      rw [beq_eq_false_iff_ne]
      intro hcc
      exact h (by simp [hcc])
    simp [replaceSlashes, hc, ih (fun hm => h (List.mem_cons_of_mem _ hm))]

theorem replaceSlashes_inj : ∀ {p q : List Char}, '_' ∉ p → '_' ∉ q →
    replaceSlashes p = replaceSlashes q → p = q := by
  intro p
  induction p with
  | nil =>
    intro q hp hq h
    cases q with
    | nil => rfl
    | cons d t =>
      exfalso
      by_cases hd : d = '/' <;> simp [replaceSlashes, hd] at h
  | cons c ps ih =>
    intro q hp hq h
    cases q with
    | nil =>
      exfalso
      by_cases hc : c = '/' <;> simp [replaceSlashes, hc] at h
    | cons d qs =>
      have hps : '_' ∉ ps := fun hm => hp (List.mem_cons_of_mem _ hm)
      have hqs : '_' ∉ qs := fun hm => hq (List.mem_cons_of_mem _ hm)
      by_cases hc : c = '/' <;> by_cases hd : d = '/'
      · simp [replaceSlashes, hc, hd] at h
        rw [hc, hd, ih hps hqs h]
      · exfalso
        simp [replaceSlashes, hc, hd] at h
        exact hq (by simp [← h.1])
      · exfalso
        simp [replaceSlashes, hc, hd] at h
        exact hp (by simp [h.1])
      · simp [replaceSlashes, hc, hd] at h
        rw [h.1, ih hps hqs h.2]

theorem mk_inj {l1 l2 : List Char} (h : String.mk l1 = String.mk l2) : l1 = l2 := by
  injection h

theorem url_code_shape (p c : String) (hc : categoryTruthy (some c) = true) :
    url_to_safe_filename p "code" (some c)
      = String.mk ("code__".data ++ (c.data ++ ("__".data
          ++ (replaceSlashes (stripSlashes (stripMd p.data)) ++ ".md".data)))) := by
  simp [url_to_safe_filename, hc, List.append_assoc]

theorem url_platform_shape (p : String) :
    url_to_safe_filename p "platform" none
      = String.mk ("platform".data ++ ("__".data
          ++ (replaceSlashes (stripSlashes (stripMd p.data)) ++ ".md".data))) := by
  simp [url_to_safe_filename, categoryTruthy, List.append_assoc]

/-- Claim C1 (counterexample): `url_to_safe_filename` is not injective on all
distinct `(path_or_name, source, category)` triples.  A path with the markdown
suffix collides with the same path without it, and a `code`-source path with
the category folded into the path collides with the categorised triple. -/
theorem url_to_safe_filename_collision :
    url_to_safe_filename "x.md" "code" (some "bwc")
        = url_to_safe_filename "x" "code" (some "bwc")
    ∧ ("x.md" : String) ≠ "x"
    ∧ url_to_safe_filename "bwc/x" "code" none
        = url_to_safe_filename "x" "code" (some "bwc")
    ∧ (("bwc/x" : String), ("code" : String), (none : Option String))
        ≠ ("x", "code", some "bwc") := by
  refine ⟨by decide, by decide, by decide, by decide⟩

/-- Claim C1 (amended): `url_to_safe_filename` is injective on canonical
triples — those whose source/category combination is one the program actually
passes (`"code"` with `"bwc"` or `"ref"`, `"platform"` with no category) and
whose path carries no trailing markdown suffix, no leading or trailing slash,
and no underscore character.  Two such triples that differ in any field map to
different filenames. -/
theorem url_to_safe_filename_injective_on_canonical
    (p1 s1 : String) (c1 : Option String) (p2 s2 : String) (c2 : Option String)
    (h1 : validTriple p1 s1 c1) (h2 : validTriple p2 s2 c2)
    (heq : url_to_safe_filename p1 s1 c1 = url_to_safe_filename p2 s2 c2) :
    p1 = p2 ∧ s1 = s2 ∧ c1 = c2 := by
  obtain ⟨hsc1, hmd1, hsl1, hu1⟩ := h1
  obtain ⟨hsc2, hmd2, hsl2, hu2⟩ := h2
  have e1 := stripMd_of_not_suffix hmd1
  have e2 := stripMd_of_not_suffix hmd2
  rcases hsc1 with ⟨hs1, hc1 | hc1⟩ | ⟨hs1, hc1⟩ <;>
    rcases hsc2 with ⟨hs2, hc2 | hc2⟩ | ⟨hs2, hc2⟩ <;>
      subst hs1 <;> subst hs2 <;> subst hc1 <;> subst hc2
  · rw [url_code_shape p1 "bwc" (by decide), url_code_shape p2 "bwc" (by decide),
      e1, e2, hsl1, hsl2] at heq
    have hd := mk_inj heq
    exact ⟨String.ext (replaceSlashes_inj hu1 hu2 (List.append_cancel_right
      (List.append_cancel_left (List.append_cancel_left (List.append_cancel_left hd))))),
      rfl, rfl⟩
  · rw [url_code_shape p1 "bwc" (by decide), url_code_shape p2 "ref" (by decide),
      e1, e2, hsl1, hsl2] at heq
    have hd := mk_inj heq
    have h6 : (some 'b' : Option Char) = some 'r' :=
      congrArg (fun l => (l.drop 6).head?) hd
    exact absurd h6 (by decide)
  · rw [url_code_shape p1 "bwc" (by decide), url_platform_shape p2,
      e1, e2, hsl1, hsl2] at heq
    have hd := mk_inj heq
    have h0 : (some 'c' : Option Char) = some 'p' := congrArg List.head? hd
    exact absurd h0 (by decide)
  · rw [url_code_shape p1 "ref" (by decide), url_code_shape p2 "bwc" (by decide),
      e1, e2, hsl1, hsl2] at heq
    have hd := mk_inj heq
    have h6 : (some 'r' : Option Char) = some 'b' :=
      congrArg (fun l => (l.drop 6).head?) hd
    exact absurd h6 (by decide)
  · rw [url_code_shape p1 "ref" (by decide), url_code_shape p2 "ref" (by decide),
      e1, e2, hsl1, hsl2] at heq
    have hd := mk_inj heq
    exact ⟨String.ext (replaceSlashes_inj hu1 hu2 (List.append_cancel_right
      (List.append_cancel_left (List.append_cancel_left (List.append_cancel_left hd))))),
      rfl, rfl⟩
  · rw [url_code_shape p1 "ref" (by decide), url_platform_shape p2,
      e1, e2, hsl1, hsl2] at heq
    have hd := mk_inj heq
    have h0 : (some 'c' : Option Char) = some 'p' := congrArg List.head? hd
    exact absurd h0 (by decide)
  · rw [url_platform_shape p1, url_code_shape p2 "bwc" (by decide),
      e1, e2, hsl1, hsl2] at heq
    have hd := mk_inj heq
    have h0 : (some 'p' : Option Char) = some 'c' := congrArg List.head? hd
    exact absurd h0 (by decide)
  · rw [url_platform_shape p1, url_code_shape p2 "ref" (by decide),
      e1, e2, hsl1, hsl2] at heq
    have hd := mk_inj heq
    have h0 : (some 'p' : Option Char) = some 'c' := congrArg List.head? hd
    exact absurd h0 (by decide)
  · rw [url_platform_shape p1, url_platform_shape p2, e1, e2, hsl1, hsl2] at heq
    have hd := mk_inj heq
    exact ⟨String.ext (replaceSlashes_inj hu1 hu2 (List.append_cancel_right
      (List.append_cancel_left (List.append_cancel_left hd)))), rfl, rfl⟩

/-- Witness for the amended C1 theorem at concrete canonical triples. -/
theorem url_to_safe_filename_injective_witness :
    validTriple "hooks" "code" (some "bwc")
    ∧ validTriple "api/messages" "platform" none
    ∧ (url_to_safe_filename "hooks" "code" (some "bwc")
          = url_to_safe_filename "hooks" "code" (some "bwc")
        → ("hooks" : String) = "hooks" ∧ ("code" : String) = "code"
            ∧ (some "bwc" : Option String) = some "bwc") := by
  refine ⟨by unfold validTriple; decide, by unfold validTriple; decide, ?_⟩
  exact url_to_safe_filename_injective_on_canonical "hooks" "code" (some "bwc")
    "hooks" "code" (some "bwc") (by unfold validTriple; decide)
    (by unfold validTriple; decide)

theorem mdPrefix_of_append (R S : List Char)
    (h : ['d','m','.'].isPrefixOf (R ++ '_' :: '_' :: S) = true) :
    ['d','m','.'].isPrefixOf R = true := by
  match R with
  | [] => simp [List.isPrefixOf] at h
  | [a] => simp [List.isPrefixOf] at h
  | [a, b] => simp [List.isPrefixOf] at h
  | a :: b :: c :: R' =>
    simp only [List.cons_append, List.isPrefixOf, Bool.and_eq_true] at h ⊢
    exact ⟨h.1, h.2.1, ⟨h.2.2.1, trivial⟩⟩

theorem no_double_md (A q : List Char)
    (hq : ".md".data.isSuffixOf q = false) :
    ".md.md".data.isSuffixOf (A ++ ("__".data ++ (q ++ ".md".data))) = false := by
  have hq' : ['d','m','.'].isPrefixOf q.reverse = false := by
    simpa [List.isSuffixOf] using hq
  unfold List.isSuffixOf
  have hrev : (A ++ ("__".data ++ (q ++ ".md".data))).reverse
      = 'd' :: 'm' :: '.' :: (q.reverse ++ '_' :: '_' :: A.reverse) := by
    simp [List.reverse_append, List.append_assoc]
  rw [hrev]
  show (['d','m','.','d','m','.'].isPrefixOf _) = false
  simp only [List.isPrefixOf, Bool.and_eq_true, beq_self_eq_true, Bool.true_and]
  cases hb : ['d','m','.'].isPrefixOf (q.reverse ++ '_' :: '_' :: A.reverse) with
  | false => simp [hb]
  | true => exact absurd (mdPrefix_of_append _ _ hb) (by simp [hq'])

theorem url_data_shape (p source : String) (category : Option String) :
    ∃ A, (url_to_safe_filename p source category).data
      = A ++ ("__".data ++ (replaceSlashes (stripSlashes (stripMd p.data)) ++ ".md".data)) := by
  refine ⟨(if source == "code" && categoryTruthy category then
    "code__".data ++ (category.getD "").data else source.data), ?_⟩
  simp [url_to_safe_filename, List.append_assoc]

/-- Claim C9 (counterexample): appending the markdown suffix is not neutral for
every path — at `x = "x.md"` the normalizer maps `x ++ ".md"` and `x` to
different filenames — and produced filenames can end in a doubled markdown
suffix, both for a path ending in a doubled suffix and for a path whose
suffix is exposed only after slash stripping. -/
theorem suffix_stripping_counterexample :
    url_to_safe_filename ("x.md" ++ ".md") "code" (some "bwc")
        ≠ url_to_safe_filename "x.md" "code" (some "bwc")
    ∧ ".md.md".data.isSuffixOf
        (url_to_safe_filename ("x.md" ++ ".md") "code" (some "bwc")).data = true
    ∧ ".md.md".data.isSuffixOf
        (url_to_safe_filename "a.md/" "platform" none).data = true := by
  refine ⟨by decide, by decide, by decide⟩

/-- Claim C9 (amended): for every path that does not already end in the
markdown suffix and contains no path separator, appending the suffix yields
the same filename as the bare path, and the produced filename never ends in a
doubled markdown suffix. -/
theorem suffix_stripping_amended (x source : String) (category : Option String)
    (h1 : ".md".data.isSuffixOf x.data = false)
    (h2 : '/' ∉ x.data) :
    url_to_safe_filename (x ++ ".md") source category
        = url_to_safe_filename x source category
    ∧ ".md.md".data.isSuffixOf (url_to_safe_filename x source category).data = false := by
  constructor
  · simp only [url_to_safe_filename]
    rw [String.data_append, stripMd_append_md, stripMd_of_not_suffix h1]
  · obtain ⟨A, hA⟩ := url_data_shape x source category
    rw [stripMd_of_not_suffix h1, stripSlashes_of_no_slash h2,
      replaceSlashes_of_no_slash h2] at hA
    rw [hA]
    exact no_double_md A x.data h1

/-- Witness for the amended C9 theorem at the concrete path `"hooks"`. -/
theorem suffix_stripping_witness :
    (".md".data.isSuffixOf ("hooks" : String).data = false)
    ∧ ('/' ∉ ("hooks" : String).data)
    ∧ (url_to_safe_filename ("hooks" ++ ".md") "code" (some "bwc")
          = url_to_safe_filename "hooks" "code" (some "bwc")
       ∧ ".md.md".data.isSuffixOf
          (url_to_safe_filename "hooks" "code" (some "bwc")).data = false) :=
  ⟨by decide, by decide,
    suffix_stripping_amended "hooks" "code" (some "bwc") (by decide) (by decide)⟩

/-- Claim C7: the validator rejects exactly when the text is empty, starts with
the document-type declaration, contains the HTML root tag in the first 100
characters, has stripped length below 50, or has fewer than 3
markdown-indicator lines among the first 50; concretely, a document-type
declaration is rejected with the HTML reason, 20 bytes of plain prose is
rejected as too short, a well-formed markdown sample is accepted, and a sample
containing none of the `doc_patterns` keywords is still accepted. -/
theorem validator_rejects_iff :
    (∀ content : String,
      (validate_markdown_content content).isSome = true
        ↔ (content.data = []
            ∨ "<!DOCTYPE".data.isPrefixOf content.data = true
            ∨ containsSub "<html".data (content.data.take 100) = true
            ∨ (pyStripList content.data).length < 50
            ∨ indicatorCount content.data < 3))
    ∧ validate_markdown_content "<!DOCTYPE html><html><body>error page</body></html>"
        = some .htmlDetected
    ∧ validate_markdown_content "just twenty letters." = some .tooShort
    ∧ ("just twenty letters." : String).data.length = 20
    ∧ validate_markdown_content goodMarkdownSample = none
    ∧ (doc_patterns.all fun pat =>
        !(containsSub pat.data (pyLowerList noKeywordSample.data))) = true
    ∧ validate_markdown_content noKeywordSample = none := by
  refine ⟨?_, by decide, by decide, by decide, by decide, by decide, by decide⟩
  intro content
  unfold validate_markdown_content
  split_ifs with h1 h2 h3 <;> simp_all [Bool.or_eq_true, decide_eq_true_eq]
  tauto

/-- Claim C2 (counterexample): with every attempt answered by a 429, the
bounded retry loop of `fetch_markdown_content` ends with its whole budget
consumed (falling through to the implicit `None` return), so rate-limited
responses alone do exhaust the `MAX_RETRIES` attempt budget. -/
theorem rate_limit_exhausts_budget_counterexample :
    fetchAttempts (fun _ => .rateLimited 60) "code__bwc__hooks.md" MAX_RETRIES 0
      = .fellThrough := by decide

/-- Claim C2 (amended): a rate-limited response consumes one of the
`MAX_RETRIES` attempt slots — after the server-specified wait the loop merely
advances to its next bounded iteration — so `MAX_RETRIES` consecutive
rate-limited responses exhaust the budget, ending the loop without a returned
pair and without raising. -/
theorem rate_limit_consumes_attempt_slot
    (responses : Nat → FetchResponse) (filename : String) :
    (∀ fuel attempt w, responses attempt = .rateLimited w →
      fetchAttempts responses filename (fuel + 1) attempt
        = fetchAttempts responses filename fuel (attempt + 1))
    ∧ ((∀ i, i < MAX_RETRIES → ∃ w, responses i = .rateLimited w) →
        fetchAttempts responses filename MAX_RETRIES 0 = .fellThrough) := by
  constructor
  · intro fuel attempt w h
    simp only [fetchAttempts]
    rw [h]
  · intro h
    obtain ⟨w0, h0⟩ := h 0 (by decide)
    obtain ⟨w1, h1⟩ := h 1 (by decide)
    obtain ⟨w2, h2⟩ := h 2 (by decide)
    show fetchAttempts responses filename 3 0 = .fellThrough
    simp [fetchAttempts, h0, h1, h2]

/-- Witness for the amended C2 theorem on the all-429 environment. -/
theorem rate_limit_consumes_witness :
    (∀ fuel attempt w,
        (fun _ => FetchResponse.rateLimited 60) attempt = .rateLimited w →
        fetchAttempts (fun _ => .rateLimited 60) "f.md" (fuel + 1) attempt
          = fetchAttempts (fun _ => .rateLimited 60) "f.md" fuel (attempt + 1))
    ∧ ((∀ i, i < MAX_RETRIES →
          ∃ w, (fun _ => FetchResponse.rateLimited 60) i = .rateLimited w) →
        fetchAttempts (fun _ => .rateLimited 60) "f.md" MAX_RETRIES 0 = .fellThrough) :=
  rate_limit_consumes_attempt_slot (fun _ => .rateLimited 60) "f.md"

/-- Claim C10: if every one of the `MAX_RETRIES` attempts receives a 429, both
`fetch_markdown_content` and `fetch_changelog` complete their loops without
returning a pair and without raising — the implicit `None` return — and the
caller's tuple unpacking then fails with a `TypeError`, which is neither the
transport-exhaustion report nor a validation error. -/
theorem all_rate_limited_returns_none
    (responses : Nat → FetchResponse) (page_path source : String)
    (category : Option String)
    (h : ∀ i, i < MAX_RETRIES → ∃ w, responses i = .rateLimited w) :
    fetch_markdown_content responses page_path source category = .fellThrough
    ∧ fetch_changelog responses = .fellThrough
    ∧ unpackResult (fetch_markdown_content responses page_path source category)
        = .error .unpackTypeError
    ∧ PageFailure.unpackTypeError ≠ PageFailure.transportExhausted
    ∧ PageFailure.unpackTypeError ≠ PageFailure.validationRejected := by
  obtain ⟨w0, h0⟩ := h 0 (by decide)
  obtain ⟨w1, h1⟩ := h 1 (by decide)
  obtain ⟨w2, h2⟩ := h 2 (by decide)
  have hm : fetch_markdown_content responses page_path source category = .fellThrough := by
    show fetchAttempts responses _ 3 0 = .fellThrough
    simp [fetchAttempts, h0, h1, h2]
  have hc : fetch_changelog responses = .fellThrough := by
    show changelogAttempts responses 3 0 = .fellThrough
    simp [changelogAttempts, h0, h1, h2]
  exact ⟨hm, hc, by rw [hm]; rfl, by decide, by decide⟩

/-- Witness for the C10 theorem on the all-429 environment. -/
theorem all_rate_limited_witness :
    fetch_markdown_content (fun _ => .rateLimited 60) "hooks" "code" (some "bwc")
        = .fellThrough
    ∧ fetch_changelog (fun _ => .rateLimited 60) = .fellThrough
    ∧ unpackResult (fetch_markdown_content (fun _ => .rateLimited 60)
          "hooks" "code" (some "bwc")) = .error .unpackTypeError
    ∧ PageFailure.unpackTypeError ≠ PageFailure.transportExhausted
    ∧ PageFailure.unpackTypeError ≠ PageFailure.validationRejected :=
  all_rate_limited_returns_none (fun _ => .rateLimited 60) "hooks" "code"
    (some "bwc") (fun _ _ => ⟨60, rfl⟩)

/-- Claim C3 (counterexample): the changelog path is not the per-page path.
On the same delivered body `"x"`, `fetch_changelog` accepts and returns the
fixed filename `"changelog.md"` with the header prepended, while the per-page
fetch rejects `"x"` through `validate_markdown_content` (too short); moreover
the normalizer output for a changelog-named code page differs from the
hardcoded filename. -/
theorem changelog_not_uniform_counterexample :
    fetch_changelog (fun _ => .ok "x")
        = .returned "changelog.md" (CHANGELOG_HEADER ++ "x")
    ∧ fetch_markdown_content (fun _ => .ok "x") "changelog" "code" (some "bwc")
        = .raisedValidation
    ∧ validate_markdown_content "x" = some .tooShort
    ∧ url_to_safe_filename "changelog" "code" (some "bwc") ≠ "changelog.md" := by
  refine ⟨by decide, by decide, by decide, by decide⟩

/-- Claim C3 (amended): the changelog is fetched by a dedicated routine whose
filename is the constant `"changelog.md"` (not computed by the normalizer) and
whose only content validation, after prepending the fixed header, is the
stripped-length-at-least-100 check — not `validate_markdown_content`. -/
theorem changelog_dedicated_path (responses : Nat → FetchResponse) (c : String)
    (h : responses 0 = .ok c) :
    fetch_changelog responses
      = (if (pyStripList (CHANGELOG_HEADER ++ c).data).length < 100
          then .raisedValidation
          else .returned "changelog.md" (CHANGELOG_HEADER ++ c)) := by
  show changelogAttempts responses 3 0 = _
  simp only [changelogAttempts]
  rw [h]

/-- Witness for the amended C3 theorem on a delivered body. -/
theorem changelog_dedicated_witness :
    fetch_changelog (fun _ => .ok "body")
      = (if (pyStripList (CHANGELOG_HEADER ++ "body").data).length < 100
          then .raisedValidation
          else .returned "changelog.md" (CHANGELOG_HEADER ++ "body")) :=
  changelog_dedicated_path (fun _ => .ok "body") "body" rfl

theorem removeFiles_spec (l : List String) (disk : String → Option String) (g : String) :
    removeFiles l disk g = if g ∈ l ∧ g ≠ MANIFEST_FILE then none else disk g := by
  induction l generalizing disk with
  | nil => simp [removeFiles]
  | cons f t ih =>
    simp only [removeFiles]
    rw [ih]
    by_cases hf : f = MANIFEST_FILE <;> by_cases hg : g = f <;>
      by_cases hgt : g ∈ t ∧ g ≠ MANIFEST_FILE <;>
        simp_all [removeFile, List.mem_cons]

theorem cleanup_spec (prevFiles currentFiles : List String)
    (disk : String → Option String) (g : String) :
    cleanup_old_files prevFiles currentFiles disk g
      = if g ∈ prevFiles ∧ g ∉ currentFiles ∧ g ≠ MANIFEST_FILE then none
        else disk g := by
  unfold cleanup_old_files
  rw [removeFiles_spec]
  have hmem : (g ∈ prevFiles.filter fun f => !(currentFiles.contains f))
      ↔ (g ∈ prevFiles ∧ g ∉ currentFiles) := by
    simp [List.mem_filter, List.contains, List.elem_iff]
  simp only [hmem, and_assoc]

/-- Claim C6: after a run, every filename recorded in the previous manifest's
`files` map that was not fetched this run is deleted from disk by
`cleanup_old_files`, and the manifest file itself is never deleted, for every
previous file list, every fetched set and every disk state. -/
theorem cleanup_deletes_stale_only
    (prevFiles currentFiles : List String) (disk : String → Option String)
    (f : String) (h1 : f ∈ prevFiles) (h2 : f ∉ currentFiles)
    (h3 : f ≠ MANIFEST_FILE) :
    cleanup_old_files prevFiles currentFiles disk f = none
    ∧ ∀ d : String → Option String,
        cleanup_old_files prevFiles currentFiles d MANIFEST_FILE
          = d MANIFEST_FILE := by
  constructor
  · rw [cleanup_spec]
    simp [h1, h2, h3]
  · intro d
    rw [cleanup_spec]
    simp

/-- Witness for the C6 theorem at a concrete previous manifest and fetch set. -/
theorem cleanup_deletes_witness :
    cleanup_old_files ["code__bwc__hooks.md", "changelog.md"] ["changelog.md"]
        (fun _ => some "text") "code__bwc__hooks.md" = none
    ∧ ∀ d : String → Option String,
        cleanup_old_files ["code__bwc__hooks.md", "changelog.md"] ["changelog.md"]
          d MANIFEST_FILE = d MANIFEST_FILE :=
  cleanup_deletes_stale_only ["code__bwc__hooks.md", "changelog.md"]
    ["changelog.md"] (fun _ => some "text") "code__bwc__hooks.md"
    (by decide) (by decide) (by decide)

theorem exit_cond_helper (fp : List String) (s : Nat) :
    (if fp ++ ["changelog"] ≠ [] ∧ s = 0 then 1 else 0) = 1 ↔ s = 0 := by
  have hne : fp ++ ["changelog"] ≠ [] := by simp
  rcases Nat.eq_zero_or_pos s with hs | hs
  · simp [hs, hne]
  · simp [Nat.pos_iff_ne_zero.mp hs]

/-- Claim C4: the run exits 1 exactly when the count of successfully synced
identities across all three sources is zero; with at least one success it
exits 0 even if other identities failed.  The changelog section always runs
and contributes either a success or a `"changelog"` failed page, so zero
successes forces a non-empty `failed_pages` and line 628's exit fires. -/
theorem exit_one_iff_zero_success (H : String → String) (now : String)
    (prev : List (String × ManifestEntry)) (disk0 : String → Option String)
    (codeDocs platformDocs : Option (List (String × FetchResult)))
    (changelogResult : FetchResult) :
    (mainRun H now prev disk0 codeDocs platformDocs changelogResult).exitCode = 1
      ↔ (mainRun H now prev disk0 codeDocs platformDocs
          changelogResult).state.successful = 0 := by
  simp only [mainRun, mainPages, runPages, List.foldl_append, List.foldl_cons,
    List.foldl_nil]
  cases changelogResult with
  | returned f c =>
    simp only [processResult]
    split
    · simp
    · simp
  | raisedTransport =>
    simp only [processResult]
    exact exit_cond_helper _ _
  | raisedValidation =>
    simp only [processResult]
    exact exit_cond_helper _ _
  | fellThrough =>
    simp only [processResult]
    exact exit_cond_helper _ _

theorem lookup_append (f : String) (l1 l2 : List (String × ManifestEntry)) :
    List.lookup f (l1 ++ l2)
      = match List.lookup f l1 with
        | some v => some v
        | none => List.lookup f l2 := by
  induction l1 with
  | nil => simp [List.lookup]
  | cons a t ih =>
    obtain ⟨k, v⟩ := a
    by_cases h : f = k
    · simp [List.lookup, h]
    · simp [List.lookup, beq_eq_false_iff_ne.mpr h, ih]

theorem lookup_eq_none_of_not_mem (f : String) (l : List (String × ManifestEntry))
    (h : f ∉ l.map Prod.fst) : List.lookup f l = none := by
  induction l with
  | nil => rfl
  | cons a t ih =>
    obtain ⟨k, v⟩ := a
    simp only [List.map_cons, List.mem_cons] at h
    push_neg at h
    simp [List.lookup, beq_eq_false_iff_ne.mpr h.1, ih h.2]

theorem mem_keys_of_lookup_some {f : String} {e : ManifestEntry}
    {l : List (String × ManifestEntry)} (h : List.lookup f l = some e) :
    f ∈ l.map Prod.fst := by
  by_contra hn
  rw [lookup_eq_none_of_not_mem f l hn] at h
  cases h

theorem mem_of_lookup_some {f : String} {e : ManifestEntry}
    {l : List (String × ManifestEntry)} (h : List.lookup f l = some e) :
    (f, e) ∈ l := by
  induction l with
  | nil => cases h
  | cons a t ih =>
    obtain ⟨k, v⟩ := a
    by_cases hf : f = k
    · subst hf
      simp [List.lookup] at h
      simp [h]
    · simp only [List.lookup, beq_eq_false_iff_ne.mpr hf] at h
      exact List.mem_cons_of_mem _ (ih h)

theorem content_unchanged_iff (H : String → String) (c oh : String) :
    content_has_changed H c oh = false ↔ H c = oh := by
  simp [content_has_changed]

theorem processResult_returned_entries (H : String → String) (now : String)
    (prev : List (String × ManifestEntry)) (st : RunState) (n f c : String) :
    ∃ lu, (processResult H now prev st n (.returned f c)).entries
        = st.entries ++ [(f, ⟨H c, lu⟩)]
      ∧ (processResult H now prev st n (.returned f c)).fetched = st.fetched ++ [f] := by
  by_cases h : content_has_changed H c (getOldHash prev f) = true
  · exact ⟨now, by simp [processResult, h], by simp [processResult, h]⟩
  · have hb : content_has_changed H c (getOldHash prev f) = false :=
      Bool.eq_false_iff.mpr h
    have he : H c = getOldHash prev f := (content_unchanged_iff H c _).mp hb
    refine ⟨getOldLastUpdated prev f now, ?_, ?_⟩
    · rw [he]
      simp [processResult, hb]
    · simp [processResult, hb]

theorem processResult_fail_state (H : String → String) (now : String)
    (prev : List (String × ManifestEntry)) (st : RunState) (n : String)
    (r : FetchResult) (hr : ∀ f c, r ≠ .returned f c) :
    (processResult H now prev st n r).entries = st.entries
    ∧ (processResult H now prev st n r).fetched = st.fetched
    ∧ (processResult H now prev st n r).written = st.written
    ∧ (processResult H now prev st n r).disk = st.disk := by
  cases r with
  | returned f c => exact absurd rfl (hr f c)
  | raisedTransport => simp [processResult]
  | raisedValidation => simp [processResult]
  | fellThrough => simp [processResult]

theorem runPages_cons (H : String → String) (now : String)
    (prev : List (String × ManifestEntry)) (st : RunState)
    (p : String × FetchResult) (rest : List (String × FetchResult)) :
    runPages H now prev st (p :: rest)
      = runPages H now prev (processResult H now prev st p.1 p.2) rest := rfl

theorem returnedFiles_cons_returned (n f c : String)
    (rest : List (String × FetchResult)) :
    returnedFiles ((n, FetchResult.returned f c) :: rest) = f :: returnedFiles rest := by
  simp [returnedFiles]

theorem returnedFiles_cons_fail (n : String) (r : FetchResult)
    (rest : List (String × FetchResult)) (hr : ∀ f c, r ≠ .returned f c) :
    returnedFiles ((n, r) :: rest) = returnedFiles rest := by
  cases r with
  | returned f c => exact absurd rfl (hr f c)
  | raisedTransport => simp [returnedFiles]
  | raisedValidation => simp [returnedFiles]
  | fellThrough => simp [returnedFiles]

theorem runPages_entries_ext (H : String → String) (now : String)
    (prev : List (String × ManifestEntry)) :
    ∀ (pages : List (String × FetchResult)) (st : RunState),
    ∃ tail, (runPages H now prev st pages).entries = st.entries ++ tail
      ∧ tail.map Prod.fst = returnedFiles pages
      ∧ (runPages H now prev st pages).fetched = st.fetched ++ returnedFiles pages := by
  intro pages
  induction pages with
  | nil => intro st; exact ⟨[], by simp [runPages, returnedFiles]⟩
  | cons p rest ih =>
    intro st
    obtain ⟨n, r⟩ := p
    rw [runPages_cons]
    cases r with
    | returned f c =>
      obtain ⟨lu, he, hf⟩ := processResult_returned_entries H now prev st n f c
      obtain ⟨tail, ht, hm, hfet⟩ := ih (processResult H now prev st n (.returned f c))
      refine ⟨(f, ⟨H c, lu⟩) :: tail, ?_, ?_, ?_⟩
      · rw [ht, he, List.append_assoc]
        rfl
      · simp [returnedFiles_cons_returned, hm]
      · rw [hfet, hf, returnedFiles_cons_returned, List.append_assoc]
        rfl
    | raisedTransport =>
      have hrf := returnedFiles_cons_fail n FetchResult.raisedTransport rest
        (fun f c h => FetchResult.noConfusion h)
      obtain ⟨he, hf, _, _⟩ := processResult_fail_state H now prev st n
        FetchResult.raisedTransport (fun f c h => FetchResult.noConfusion h)
      obtain ⟨tail, ht, hm, hfet⟩ := ih (processResult H now prev st n .raisedTransport)
      exact ⟨tail, by rw [ht, he], by rw [hm, hrf], by rw [hfet, hf, hrf]⟩
    | raisedValidation =>
      have hrf := returnedFiles_cons_fail n FetchResult.raisedValidation rest
        (fun f c h => FetchResult.noConfusion h)
      obtain ⟨he, hf, _, _⟩ := processResult_fail_state H now prev st n
        FetchResult.raisedValidation (fun f c h => FetchResult.noConfusion h)
      obtain ⟨tail, ht, hm, hfet⟩ := ih (processResult H now prev st n .raisedValidation)
      exact ⟨tail, by rw [ht, he], by rw [hm, hrf], by rw [hfet, hf, hrf]⟩
    | fellThrough =>
      have hrf := returnedFiles_cons_fail n FetchResult.fellThrough rest
        (fun f c h => FetchResult.noConfusion h)
      obtain ⟨he, hf, _, _⟩ := processResult_fail_state H now prev st n
        FetchResult.fellThrough (fun f c h => FetchResult.noConfusion h)
      obtain ⟨tail, ht, hm, hfet⟩ := ih (processResult H now prev st n .fellThrough)
      exact ⟨tail, by rw [ht, he], by rw [hm, hrf], by rw [hfet, hf, hrf]⟩

theorem processResult_unchanged (H : String → String) (now : String)
    (prev : List (String × ManifestEntry)) (st : RunState) (n f c : String)
    (e : ManifestEntry) (hlk : List.lookup f prev = some e)
    (hhash : H c = e.hash) :
    (processResult H now prev st n (.returned f c)).written = st.written
    ∧ (processResult H now prev st n (.returned f c)).entries
        = st.entries ++ [(f, ⟨e.hash, e.last_updated⟩)]
    ∧ (processResult H now prev st n (.returned f c)).fetched = st.fetched ++ [f]
    ∧ (processResult H now prev st n (.returned f c)).disk = st.disk := by
  have hold : getOldHash prev f = e.hash := by simp [getOldHash, hlk]
  have hlu : getOldLastUpdated prev f now = e.last_updated := by
    simp [getOldLastUpdated, hlk]
  have hch : ¬ content_has_changed H c (getOldHash prev f) = true := by
    simp [content_has_changed, hold, hhash]
  refine ⟨?_, ?_, ?_, ?_⟩
  all_goals simp only [processResult, if_neg hch]
  all_goals simp [hold, hlu]

theorem runPages_lookup_of_mem (H : String → String) (now : String)
    (prev : List (String × ManifestEntry)) :
    ∀ (pages : List (String × FetchResult)) (st : RunState) (n f c : String),
    (st.entries.map Prod.fst ++ returnedFiles pages).Nodup →
    (n, FetchResult.returned f c) ∈ pages →
    ∃ e, List.lookup f (runPages H now prev st pages).entries = some e
      ∧ e.hash = H c := by
  intro pages
  induction pages with
  | nil =>
    intro st n f c hnd hmem
    simp at hmem
  | cons p rest ih =>
    intro st n f c hnd hmem
    obtain ⟨m, r⟩ := p
    rw [runPages_cons]
    rcases List.mem_cons.mp hmem with heq | hmem'
    · injection heq with hm hr
      subst hr
      rw [returnedFiles_cons_returned] at hnd
      have hfK : f ∉ st.entries.map Prod.fst := by
        intro hmemK
        exact (List.disjoint_of_nodup_append hnd) hmemK (List.mem_cons_self _ _)
      have hfR : f ∉ returnedFiles rest := by
        have h2 := (List.nodup_cons.mp (List.Nodup.of_append_right hnd)).1
        exact h2
      obtain ⟨lu, he, _⟩ := processResult_returned_entries H now prev st m f c
      obtain ⟨tail, ht, hmap, _⟩ :=
        runPages_entries_ext H now prev rest (processResult H now prev st m (.returned f c))
      refine ⟨⟨H c, lu⟩, ?_, rfl⟩
      rw [ht, he, List.append_assoc, lookup_append,
        lookup_eq_none_of_not_mem f st.entries hfK]
      simp [List.lookup]
    · cases r with
      | returned f' c' =>
        obtain ⟨lu, he, _⟩ := processResult_returned_entries H now prev st m f' c'
        apply ih (processResult H now prev st m (.returned f' c')) n f c ?_ hmem'
        rw [he, List.map_append, List.append_assoc]
        rw [returnedFiles_cons_returned] at hnd
        simpa using hnd
      | raisedTransport =>
        obtain ⟨he, _, _, _⟩ := processResult_fail_state H now prev st m
          FetchResult.raisedTransport (fun f c h => FetchResult.noConfusion h)
        apply ih (processResult H now prev st m .raisedTransport) n f c ?_ hmem'
        rw [he]
        rw [returnedFiles_cons_fail m FetchResult.raisedTransport rest
          (fun f c h => FetchResult.noConfusion h)] at hnd
        exact hnd
      | raisedValidation =>
        obtain ⟨he, _, _, _⟩ := processResult_fail_state H now prev st m
          FetchResult.raisedValidation (fun f c h => FetchResult.noConfusion h)
        apply ih (processResult H now prev st m .raisedValidation) n f c ?_ hmem'
        rw [he]
        rw [returnedFiles_cons_fail m FetchResult.raisedValidation rest
          (fun f c h => FetchResult.noConfusion h)] at hnd
        exact hnd
      | fellThrough =>
        obtain ⟨he, _, _, _⟩ := processResult_fail_state H now prev st m
          FetchResult.fellThrough (fun f c h => FetchResult.noConfusion h)
        apply ih (processResult H now prev st m .fellThrough) n f c ?_ hmem'
        rw [he]
        rw [returnedFiles_cons_fail m FetchResult.fellThrough rest
          (fun f c h => FetchResult.noConfusion h)] at hnd
        exact hnd

theorem runPages_unchanged (H : String → String) (now : String)
    (prev : List (String × ManifestEntry)) :
    ∀ (pages : List (String × FetchResult)) (st : RunState),
    (∀ n f c, (n, FetchResult.returned f c) ∈ pages →
      ∃ e, List.lookup f prev = some e ∧ H c = e.hash) →
    (runPages H now prev st pages).written = st.written
    ∧ ∃ tail, (runPages H now prev st pages).entries = st.entries ++ tail
        ∧ ∀ f e', (f, e') ∈ tail →
            ∃ e, List.lookup f prev = some e
              ∧ e' = ⟨e.hash, e.last_updated⟩ := by
  intro pages
  induction pages with
  | nil =>
    intro st _
    exact ⟨rfl, [], by simp [runPages], fun f e' h => absurd h (List.not_mem_nil _)⟩
  | cons p rest ih =>
    intro st hmatch
    obtain ⟨m, r⟩ := p
    rw [runPages_cons]
    cases r with
    | returned f c =>
      obtain ⟨e, hlk, hhash⟩ := hmatch m f c (List.mem_cons_self _ _)
      obtain ⟨hw0, he0, hf0, hd0⟩ :=
        processResult_unchanged H now prev st m f c e hlk hhash
      obtain ⟨hw, tail, ht, htail⟩ :=
        ih (processResult H now prev st m (.returned f c))
          (fun n' f' c' hm => hmatch n' f' c' (List.mem_cons_of_mem _ hm))
      refine ⟨by rw [hw, hw0], (f, ⟨e.hash, e.last_updated⟩) :: tail, ?_, ?_⟩
      · rw [ht, he0, List.append_assoc]
        rfl
      · intro f' e' hmem'
        rcases List.mem_cons.mp hmem' with heq | hm'
        · injection heq with h1 h2
          subst h1
          exact ⟨e, hlk, h2⟩
        · exact htail f' e' hm'
    | raisedTransport =>
      obtain ⟨he, _, hwr, _⟩ := processResult_fail_state H now prev st m
        FetchResult.raisedTransport (fun f c h => FetchResult.noConfusion h)
      obtain ⟨hw, tail, ht, htail⟩ :=
        ih (processResult H now prev st m .raisedTransport)
          (fun n' f' c' hm => hmatch n' f' c' (List.mem_cons_of_mem _ hm))
      exact ⟨by rw [hw, hwr], tail, by rw [ht, he], htail⟩
    | raisedValidation =>
      obtain ⟨he, _, hwr, _⟩ := processResult_fail_state H now prev st m
        FetchResult.raisedValidation (fun f c h => FetchResult.noConfusion h)
      obtain ⟨hw, tail, ht, htail⟩ :=
        ih (processResult H now prev st m .raisedValidation)
          (fun n' f' c' hm => hmatch n' f' c' (List.mem_cons_of_mem _ hm))
      exact ⟨by rw [hw, hwr], tail, by rw [ht, he], htail⟩
    | fellThrough =>
      obtain ⟨he, _, hwr, _⟩ := processResult_fail_state H now prev st m
        FetchResult.fellThrough (fun f c h => FetchResult.noConfusion h)
      obtain ⟨hw, tail, ht, htail⟩ :=
        ih (processResult H now prev st m .fellThrough)
          (fun n' f' c' hm => hmatch n' f' c' (List.mem_cons_of_mem _ hm))
      exact ⟨by rw [hw, hwr], tail, by rw [ht, he], htail⟩

/-- Claim C5: per identity, when the fetched content's digest equals the hash
stored under the same filename in the previous manifest, the run writes no
file for that filename and the fresh manifest entry carries forward the
previous `last_updated`; consequently a second run over the same fetch results
(unchanged remote content) performs zero writes and leaves every entry's
`last_updated` (and hash) unchanged. -/
theorem unchanged_content_convergence (H : String → String)
    (now1 now2 : String) (prev : List (String × ManifestEntry))
    (disk0 : String → Option String)
    (codeDocs platformDocs : Option (List (String × FetchResult)))
    (changelogResult : FetchResult)
    (hnd : (returnedFiles (mainPages codeDocs platformDocs changelogResult)).Nodup) :
    (∀ (st : RunState) (n f c : String) (e : ManifestEntry),
        List.lookup f prev = some e → H c = e.hash →
        (processResult H now1 prev st n (.returned f c)).written = st.written
        ∧ (processResult H now1 prev st n (.returned f c)).entries
            = st.entries ++ [(f, ⟨e.hash, e.last_updated⟩)])
    ∧ ((mainRun H now2
          (mainRun H now1 prev disk0 codeDocs platformDocs changelogResult).state.entries
          (mainRun H now1 prev disk0 codeDocs platformDocs changelogResult).finalDisk
          codeDocs platformDocs changelogResult).state.written = []
       ∧ ∀ (f : String) (e2 : ManifestEntry),
          List.lookup f (mainRun H now2
              (mainRun H now1 prev disk0 codeDocs platformDocs changelogResult).state.entries
              (mainRun H now1 prev disk0 codeDocs platformDocs changelogResult).finalDisk
              codeDocs platformDocs changelogResult).state.entries = some e2 →
          ∃ e1, List.lookup f
              (mainRun H now1 prev disk0 codeDocs platformDocs
                changelogResult).state.entries = some e1
            ∧ e2.last_updated = e1.last_updated ∧ e2.hash = e1.hash) := by
  constructor
  · intro st n f c e hlk hh
    obtain ⟨h1, h2, _, _⟩ := processResult_unchanged H now1 prev st n f c e hlk hh
    exact ⟨h1, h2⟩
  · have hstate : ∀ (nw : String) (pv : List (String × ManifestEntry))
        (d0 : String → Option String),
        (mainRun H nw pv d0 codeDocs platformDocs changelogResult).state
          = runPages H nw pv (initState d0)
              (mainPages codeDocs platformDocs changelogResult) := fun _ _ _ => rfl
    rw [hstate, hstate]
    have hnd0 : (((initState disk0).entries.map Prod.fst)
        ++ returnedFiles (mainPages codeDocs platformDocs changelogResult)).Nodup := by
      simpa [initState] using hnd
    have hm2 : ∀ n f c,
        (n, FetchResult.returned f c) ∈ mainPages codeDocs platformDocs changelogResult →
        ∃ e, List.lookup f (runPages H now1 prev (initState disk0)
            (mainPages codeDocs platformDocs changelogResult)).entries = some e
          ∧ H c = e.hash := by
      intro n f c hmem
      obtain ⟨e, hlk, hh⟩ := runPages_lookup_of_mem H now1 prev
        (mainPages codeDocs platformDocs changelogResult) (initState disk0)
        n f c hnd0 hmem
      exact ⟨e, hlk, hh.symm⟩
    obtain ⟨hw, tail, ht, htail⟩ := runPages_unchanged H now2
      (runPages H now1 prev (initState disk0)
        (mainPages codeDocs platformDocs changelogResult)).entries
      (mainPages codeDocs platformDocs changelogResult)
      (initState ((mainRun H now1 prev disk0 codeDocs platformDocs
        changelogResult).finalDisk)) hm2
    constructor
    · rw [hw]
      rfl
    · intro f e2 hlk2
      rw [ht] at hlk2
      simp only [initState, List.nil_append] at hlk2
      obtain ⟨e1, hlk1, he⟩ := htail f e2 (mem_of_lookup_some hlk2)
      exact ⟨e1, hlk1, by rw [he], by rw [he]⟩

theorem runPages_hash_inv (H : String → String) (now : String)
    (prev : List (String × ManifestEntry)) (disk0 : String → Option String)
    (hH : ∀ c, H c ≠ "")
    (hprev : ∀ f e, List.lookup f prev = some e →
      ∃ d, disk0 f = some d ∧ e.hash = H d) :
    ∀ (pages : List (String × FetchResult)) (st : RunState),
    (st.entries.map Prod.fst ++ returnedFiles pages).Nodup →
    (∀ f e, List.lookup f st.entries = some e →
      ∃ d, st.disk f = some d ∧ e.hash = H d) →
    (∀ f, f ∉ st.entries.map Prod.fst → st.disk f = disk0 f) →
    (∀ f e, List.lookup f (runPages H now prev st pages).entries = some e →
        ∃ d, (runPages H now prev st pages).disk f = some d ∧ e.hash = H d) := by
  intro pages
  induction pages with
  | nil =>
    intro st hnd h1 h2
    exact h1
  | cons p rest ih =>
    intro st hnd h1 h2
    obtain ⟨m, r⟩ := p
    rw [runPages_cons]
    cases r with
    | returned f c =>
      rw [returnedFiles_cons_returned] at hnd
      have hfK : f ∉ st.entries.map Prod.fst := fun hmem =>
        (List.disjoint_of_nodup_append hnd) hmem (List.mem_cons_self _ _)
      by_cases hch : content_has_changed H c (getOldHash prev f) = true
      · have hse : (processResult H now prev st m (.returned f c)).entries
            = st.entries ++ [(f, ⟨H c, now⟩)] := by simp [processResult, hch]
        have hsd : (processResult H now prev st m (.returned f c)).disk
            = fun g => if g = f then some c else st.disk g := by
          simp [processResult, hch]
        apply ih (processResult H now prev st m (.returned f c)) ?nd ?ha ?hb
        case nd =>
          rw [hse, List.map_append, List.append_assoc]
          simpa using hnd
        case ha =>
          intro f' e' hlk'
          rw [hse, lookup_append] at hlk'
          rw [hsd]
          cases hcase : List.lookup f' st.entries with
          | some e0 =>
            rw [hcase] at hlk'
            injection hlk' with hee
            subst hee
            obtain ⟨d, hd, hh⟩ := h1 f' e0 hcase
            have hne : f' ≠ f := fun h => hfK (h ▸ mem_keys_of_lookup_some hcase)
            exact ⟨d, by simp [hne, hd], hh⟩
          | none =>
            rw [hcase] at hlk'
            by_cases hff : f' = f
            · subst hff
              simp only [List.lookup, beq_self_eq_true] at hlk'
              injection hlk' with hee
              subst hee
              exact ⟨c, by simp, rfl⟩
            · simp only [List.lookup, beq_eq_false_iff_ne.mpr hff] at hlk'
              cases hlk'
        case hb =>
          intro f' hnot
          rw [hse, List.map_append] at hnot
          simp only [List.mem_append, List.map_cons, List.map_nil,
            List.mem_singleton, not_or] at hnot
          rw [hsd]
          simp only [hnot.2, if_false]
          exact h2 f' hnot.1
      · have hb : content_has_changed H c (getOldHash prev f) = false :=
          Bool.eq_false_iff.mpr hch
        have hhc : H c = getOldHash prev f := (content_unchanged_iff H c _).mp hb
        cases hpl : List.lookup f prev with
        | none =>
          exfalso
          have hz : getOldHash prev f = "" := by simp [getOldHash, hpl]
          exact hH c (by rw [hhc, hz])
        | some e0 =>
          have hh0 : H c = e0.hash := by
            rw [hhc]
            simp [getOldHash, hpl]
          obtain ⟨_, hse, _, hsd⟩ :=
            processResult_unchanged H now prev st m f c e0 hpl hh0
          apply ih (processResult H now prev st m (.returned f c)) ?nd ?ha ?hb
          case nd =>
            rw [hse, List.map_append, List.append_assoc]
            simpa using hnd
          case ha =>
            intro f' e' hlk'
            rw [hse, lookup_append] at hlk'
            rw [hsd]
            cases hcase : List.lookup f' st.entries with
            | some eA =>
              rw [hcase] at hlk'
              injection hlk' with hee
              subst hee
              exact h1 f' eA hcase
            | none =>
              rw [hcase] at hlk'
              by_cases hff : f' = f
              · subst hff
                simp only [List.lookup, beq_self_eq_true] at hlk'
                injection hlk' with hee
                subst hee
                obtain ⟨d, hd0, hh⟩ := hprev f' e0 hpl
                have hdisk : st.disk f' = disk0 f' := h2 f' hfK
                exact ⟨d, by rw [hdisk, hd0], hh⟩
              · simp only [List.lookup, beq_eq_false_iff_ne.mpr hff] at hlk'
                cases hlk'
          case hb =>
            intro f' hnot
            rw [hse, List.map_append] at hnot
            simp only [List.mem_append, List.map_cons, List.map_nil,
              List.mem_singleton, not_or] at hnot
            rw [hsd]
            exact h2 f' hnot.1
    | raisedTransport =>
      obtain ⟨he, _, _, hd⟩ := processResult_fail_state H now prev st m
        FetchResult.raisedTransport (fun f c h => FetchResult.noConfusion h)
      apply ih (processResult H now prev st m .raisedTransport) ?nd ?ha ?hb
      case nd =>
        rw [he]
        rw [returnedFiles_cons_fail m FetchResult.raisedTransport rest
          (fun f c h => FetchResult.noConfusion h)] at hnd
        exact hnd
      case ha =>
        intro f' e' hlk'
        rw [he] at hlk'
        rw [hd]
        exact h1 f' e' hlk'
      case hb =>
        intro f' hnot
        rw [he] at hnot
        rw [hd]
        exact h2 f' hnot
    | raisedValidation =>
      obtain ⟨he, _, _, hd⟩ := processResult_fail_state H now prev st m
        FetchResult.raisedValidation (fun f c h => FetchResult.noConfusion h)
      apply ih (processResult H now prev st m .raisedValidation) ?nd ?ha ?hb
      case nd =>
        rw [he]
        rw [returnedFiles_cons_fail m FetchResult.raisedValidation rest
          (fun f c h => FetchResult.noConfusion h)] at hnd
        exact hnd
      case ha =>
        intro f' e' hlk'
        rw [he] at hlk'
        rw [hd]
        exact h1 f' e' hlk'
      case hb =>
        intro f' hnot
        rw [he] at hnot
        rw [hd]
        exact h2 f' hnot
    | fellThrough =>
      obtain ⟨he, _, _, hd⟩ := processResult_fail_state H now prev st m
        FetchResult.fellThrough (fun f c h => FetchResult.noConfusion h)
      apply ih (processResult H now prev st m .fellThrough) ?nd ?ha ?hb
      case nd =>
        rw [he]
        rw [returnedFiles_cons_fail m FetchResult.fellThrough rest
          (fun f c h => FetchResult.noConfusion h)] at hnd
        exact hnd
      case ha =>
        intro f' e' hlk'
        rw [he] at hlk'
        rw [hd]
        exact h1 f' e' hlk'
      case hb =>
        intro f' hnot
        rw [he] at hnot
        rw [hd]
        exact h2 f' hnot

/-- Claim C8: after a run, every entry of the written manifest stores exactly
the digest of the corresponding file's current on-disk content, provided the
previous manifest satisfied the same invariant, no external modification
occurred, the digest is never the empty string (true of SHA-256 hex), and
discovered filenames do not collide. -/
theorem hash_integrity (H : String → String) (now : String)
    (prev : List (String × ManifestEntry)) (disk0 : String → Option String)
    (codeDocs platformDocs : Option (List (String × FetchResult)))
    (changelogResult : FetchResult)
    (hH : ∀ c, H c ≠ "")
    (hprev : ∀ f e, List.lookup f prev = some e →
      ∃ d, disk0 f = some d ∧ e.hash = H d)
    (hnd : (returnedFiles (mainPages codeDocs platformDocs changelogResult)).Nodup) :
    ∀ f e, List.lookup f (mainRun H now prev disk0 codeDocs platformDocs
        changelogResult).state.entries = some e →
      ∃ d, (mainRun H now prev disk0 codeDocs platformDocs
          changelogResult).finalDisk f = some d ∧ e.hash = H d := by
  intro f e hlk
  have hstate : (mainRun H now prev disk0 codeDocs platformDocs changelogResult).state
      = runPages H now prev (initState disk0)
          (mainPages codeDocs platformDocs changelogResult) := rfl
  have hfinal : (mainRun H now prev disk0 codeDocs platformDocs changelogResult).finalDisk
      = cleanup_old_files (prev.map Prod.fst)
          (runPages H now prev (initState disk0)
            (mainPages codeDocs platformDocs changelogResult)).fetched
          (runPages H now prev (initState disk0)
            (mainPages codeDocs platformDocs changelogResult)).disk := rfl
  rw [hstate] at hlk
  obtain ⟨d, hd, hh⟩ := runPages_hash_inv H now prev disk0 hH hprev
    (mainPages codeDocs platformDocs changelogResult) (initState disk0)
    (by simpa [initState] using hnd)
    (by intro f' e' h; simp [initState, List.lookup] at h)
    (by intro f' _; rfl) f e hlk
  have hfmem : f ∈ (runPages H now prev (initState disk0)
      (mainPages codeDocs platformDocs changelogResult)).fetched := by
    obtain ⟨tail, ht, hmap, hfet⟩ := runPages_entries_ext H now prev
      (mainPages codeDocs platformDocs changelogResult) (initState disk0)
    rw [hfet]
    have hk := mem_keys_of_lookup_some hlk
    rw [ht] at hk
    simp only [initState, List.nil_append] at hk ⊢
    rw [← hmap]
    exact hk
  rw [hfinal, cleanup_spec]
  rw [if_neg (fun hcon => hcon.2.1 hfmem)]
  exact ⟨d, hd, hh⟩

/-- Witness for the C5 theorem at concrete run inputs. -/
theorem unchanged_content_convergence_witness :
    (returnedFiles (mainPages sampleCodeDocs none sampleChangelog)).Nodup
    ∧ ((∀ (st : RunState) (n f c : String) (e : ManifestEntry),
          List.lookup f ([] : List (String × ManifestEntry)) = some e →
          sampleH c = e.hash →
          (processResult sampleH "t1" [] st n (.returned f c)).written = st.written
          ∧ (processResult sampleH "t1" [] st n (.returned f c)).entries
              = st.entries ++ [(f, ⟨e.hash, e.last_updated⟩)])
      ∧ ((mainRun sampleH "t2"
            (mainRun sampleH "t1" [] (fun _ => none) sampleCodeDocs none
              sampleChangelog).state.entries
            (mainRun sampleH "t1" [] (fun _ => none) sampleCodeDocs none
              sampleChangelog).finalDisk
            sampleCodeDocs none sampleChangelog).state.written = []
        ∧ ∀ (f : String) (e2 : ManifestEntry),
            List.lookup f (mainRun sampleH "t2"
                (mainRun sampleH "t1" [] (fun _ => none) sampleCodeDocs none
                  sampleChangelog).state.entries
                (mainRun sampleH "t1" [] (fun _ => none) sampleCodeDocs none
                  sampleChangelog).finalDisk
                sampleCodeDocs none sampleChangelog).state.entries = some e2 →
            ∃ e1, List.lookup f
                (mainRun sampleH "t1" [] (fun _ => none) sampleCodeDocs none
                  sampleChangelog).state.entries = some e1
              ∧ e2.last_updated = e1.last_updated ∧ e2.hash = e1.hash)) :=
  ⟨by decide, unchanged_content_convergence sampleH "t1" "t2" [] (fun _ => none)
    sampleCodeDocs none sampleChangelog (by decide)⟩

/-- Witness for the C8 theorem at concrete run inputs. -/
theorem hash_integrity_witness :
    (∀ c, sampleH c ≠ "")
    ∧ (∀ f e, List.lookup f ([] : List (String × ManifestEntry)) = some e →
        ∃ d, (fun _ => (none : Option String)) f = some d ∧ e.hash = sampleH d)
    ∧ (returnedFiles (mainPages sampleCodeDocs none sampleChangelog)).Nodup
    ∧ (∀ f e, List.lookup f (mainRun sampleH "t1" [] (fun _ => none)
          sampleCodeDocs none sampleChangelog).state.entries = some e →
        ∃ d, (mainRun sampleH "t1" [] (fun _ => none) sampleCodeDocs none
            sampleChangelog).finalDisk f = some d ∧ e.hash = sampleH d) := by
  have hne : ∀ c, sampleH c ≠ "" := by
    intro c h
    have h2 := congrArg String.data h
    rw [show sampleH c = "sha-" ++ c from rfl, String.data_append] at h2
    exact absurd (List.append_eq_nil.mp h2).1 (by decide)
  have hpv : ∀ f e, List.lookup f ([] : List (String × ManifestEntry)) = some e →
      ∃ d, (fun _ => (none : Option String)) f = some d ∧ e.hash = sampleH d := by
    intro f e h
    simp [List.lookup] at h
  exact ⟨hne, hpv, by decide, hash_integrity sampleH "t1" [] (fun _ => none)
    sampleCodeDocs none sampleChangelog hne hpv (by decide)⟩
